import Mathlib

/-!
Shallow embedding of the answer-normalization / matching engine of
`evaluator.py` (Real-Matrix repository) and of the aggregate metric
calculations it feeds (`calculate_system_metrics`,
`calculate_consensus_rate`, `calculate_improvement_rate`).

Modelling conventions:
* Python floats are modelled as exact rationals (`ℚ`); `float` string
  literals `inf`/`nan` are modelled as parse failures (in every reachable
  call site the Python code produces the same boolean outcome), and the
  `:.6f` formatting rounds half-up on exact rationals.
* The regex character class `\d` is modelled as the ASCII digits, and
  `str.lower` as ASCII lowercasing.
* Python dicts are modelled as insertion-ordered association lists
  (`List (String × _)`); `d.get(k, default)` becomes `List.lookup` with
  `Option.getD`.
-/

namespace RealMatrix

/-- Python's whitespace class (`\s`, `str.split()`, `str.strip()`). -/
def pySpace (c : Char) : Bool :=
  c = ' ' || c = '\t' || c = '\n' || c = '\r' || c = '\x0b' || c = '\x0c'

/-- ASCII lowercasing of a character list (Python `str.lower`). -/
def lowerChars (l : List Char) : List Char := l.map Char.toLower

/-- Case-insensitive prefix test (the source regexes use `re.IGNORECASE`;
the patterns we test against are already lowercase). -/
def ciPrefix (pat : List Char) (l : List Char) : Bool :=
  List.isPrefixOf pat (lowerChars l)

/-- Case-insensitive suffix test. -/
def ciSuffix (pat : List Char) (l : List Char) : Bool :=
  List.isSuffixOf pat (lowerChars l)

/-- Python `str.strip()`. -/
def pyStripChars (l : List Char) : List Char :=
  ((l.dropWhile pySpace).reverse.dropWhile pySpace).reverse

/-- Strip trailing whitespace only. -/
def rstripWs (l : List Char) : List Char :=
  (l.reverse.dropWhile pySpace).reverse

/-- `re.sub(r'^\$', '', answer)`: remove one leading dollar sign. -/
def stripDollar : List Char → List Char
  | '$' :: t => t
  | l => l

/-- `re.sub(r'^USD\s*', '', answer, flags=re.IGNORECASE)`. -/
def stripUSD (l : List Char) : List Char :=
  if ciPrefix ['u', 's', 'd'] l then (l.drop 3).dropWhile pySpace else l

/-- Drop `pat.length` characters from the end of `l`. -/
def dropEnd (n : ℕ) (l : List Char) : List Char :=
  l.take (l.length - n)

/-- `re.sub(r'\s*(dollars?|USD|units?)$', '', answer, flags=re.IGNORECASE)`.
The regex is anchored at the end of the string; at most one alternative can
be a suffix at a time, and the `\s*` part amounts to also stripping the
whitespace run in front of the matched word. -/
def stripSuffixWords (l : List Char) : List Char :=
  if ciSuffix ['d', 'o', 'l', 'l', 'a', 'r', 's'] l then rstripWs (dropEnd 7 l)
  else if ciSuffix ['d', 'o', 'l', 'l', 'a', 'r'] l then rstripWs (dropEnd 6 l)
  else if ciSuffix ['u', 's', 'd'] l then rstripWs (dropEnd 3 l)
  else if ciSuffix ['u', 'n', 'i', 't', 's'] l then rstripWs (dropEnd 5 l)
  else if ciSuffix ['u', 'n', 'i', 't'] l then rstripWs (dropEnd 4 l)
  else l

/-- Helper for Python `str.split()`: split on whitespace runs, no empty words. -/
def splitWsAux : List Char → List Char → List (List Char)
  | cur, [] => if cur.isEmpty then [] else [cur.reverse]
  | cur, c :: t =>
    if pySpace c then
      if cur.isEmpty then splitWsAux [] t else cur.reverse :: splitWsAux [] t
    else splitWsAux (c :: cur) t

/-- Python `answer.split()`. -/
def pyWords (l : List Char) : List (List Char) := splitWsAux [] l

/-- Python `' '.join(answer.split())`. -/
def collapseWs (l : List Char) : List Char := List.intercalate [' '] (pyWords l)

/-- The cleanup pipeline at the top of `normalize_answer`: strip, remove the
currency prefixes, remove the trailing currency/unit words, collapse
whitespace. -/
def cleanupChars (l : List Char) : List Char :=
  collapseWs (stripSuffixWords (stripUSD (stripDollar (pyStripChars l))))

/-! ### Kernel-computable rational arithmetic

The `Rat` field operations of the ambient library are `@[irreducible]`, so
concrete evaluation (needed to run the embedded code on witnesses) goes
through these `mkRat`/`divInt`-based equivalents; bridge lemmas below prove
them equal to the ordinary operations. -/

/-- `a + b` on `ℚ`, kernel-computable. -/
def qAdd (a b : ℚ) : ℚ := mkRat (a.num * b.den + b.num * a.den) (a.den * b.den)

/-- `a * b` on `ℚ`, kernel-computable. -/
def qMul (a b : ℚ) : ℚ := mkRat (a.num * b.num) (a.den * b.den)

/-- `a - b` on `ℚ`, kernel-computable. -/
def qSub (a b : ℚ) : ℚ := qAdd a (-b)

/-- `a / b` on `ℚ` (with `a / 0 = 0`), kernel-computable. -/
def qDiv (a b : ℚ) : ℚ := Rat.divInt (a.num * b.den) (a.den * b.num)

/-- `|q|`, kernel-computable. -/
def ratAbs (q : ℚ) : ℚ := if q < 0 then -q else q

/-! ### Decimal parsing and printing -/

/-- Numeric value of an ASCII digit character. -/
def digVal (c : Char) : ℕ := c.toNat - 48

/-- Value of a list of ASCII digit characters, most significant first. -/
def parseNatChars (l : List Char) : ℕ :=
  l.foldl (fun a c => 10 * a + digVal c) 0

/-- Fuel-driven decimal printer (structural recursion so that the kernel can
evaluate it). -/
def natToCharsAux : ℕ → ℕ → List Char
  | 0, _ => []
  | fuel + 1, n =>
    if n < 10 then [Nat.digitChar n]
    else natToCharsAux fuel (n / 10) ++ [Nat.digitChar (n % 10)]

/-- Decimal representation of a natural number (Python `str`). -/
def natToChars (n : ℕ) : List Char := natToCharsAux (n + 1) n

/-- Python `str` of an `int`. -/
def intToChars (n : ℤ) : List Char :=
  if n < 0 then '-' :: natToChars n.natAbs else natToChars n.toNat

/-- A character of the regex class `[\d.]`. -/
def tokChar (c : Char) : Bool := c.isDigit || c = '.'

/-- Python `float` applied to a `[\d.]+` token: succeeds iff the token has at
least one digit and at most one dot. -/
def pyTokenFloat (tok : List Char) : Option ℚ :=
  if tok.all tokChar ∧ tok.any (fun c => c.isDigit) ∧ tok.count '.' ≤ 1 then
    let ip := tok.takeWhile (fun c => c ≠ '.')
    let fp := (tok.dropWhile (fun c => c ≠ '.')).drop 1
    some (qAdd (parseNatChars ip : ℚ) (mkRat (parseNatChars fp) (10 ^ fp.length)))
  else none

/-- Multiply by `10^e` for an integer exponent, kernel-computable. -/
def mulPow10 (q : ℚ) (e : ℤ) : ℚ :=
  if 0 ≤ e then qMul q ((10 ^ e.toNat : ℕ) : ℚ) else qDiv q ((10 ^ e.natAbs : ℕ) : ℚ)

/-- Python `float(s)` on a whole string: optional sign, decimal mantissa,
optional exponent.  (`inf`/`nan`/underscores are modelled as failures.) -/
def pyFloatFull (l : List Char) : Option ℚ :=
  let s := pyStripChars l
  let sg : ℚ × List Char :=
    match s with
    | '+' :: t => (1, t)
    | '-' :: t => (-1, t)
    | _ => (1, s)
  let ip := sg.2.takeWhile Char.isDigit
  let r1 := sg.2.dropWhile Char.isDigit
  let fr : List Char × List Char :=
    match r1 with
    | '.' :: t => (t.takeWhile Char.isDigit, t.dropWhile Char.isDigit)
    | _ => ([], r1)
  if ip.isEmpty ∧ fr.1.isEmpty then none
  else
    let mant : ℚ := qAdd (parseNatChars ip : ℚ) (mkRat (parseNatChars fr.1) (10 ^ fr.1.length))
    match fr.2 with
    | [] => some (qMul sg.1 mant)
    | c :: t =>
      if c = 'e' ∨ c = 'E' then
        let esg : ℤ × List Char :=
          match t with
          | '+' :: u => (1, u)
          | '-' :: u => (-1, u)
          | _ => (1, t)
        let ed := esg.2.takeWhile Char.isDigit
        if ed.isEmpty ∨ ¬(esg.2.dropWhile Char.isDigit).isEmpty then none
        else some (mulPow10 (qMul sg.1 mant) (esg.1 * (parseNatChars ed : ℤ)))
      else none

/-- Split an optional leading sign off a stripped numeric string. -/
def signSplit (s : List Char) : ℤ × List Char :=
  match s with
  | [] => (1, [])
  | c :: t => if c = '+' then (1, t) else if c = '-' then (-1, t) else (1, c :: t)

/-- Python `int(s)` on a whole string: optional sign, digits. -/
def pyIntFull (l : List Char) : Option ℤ :=
  let sg := signSplit (pyStripChars l)
  if ¬sg.2.isEmpty ∧ sg.2.all Char.isDigit then some (sg.1 * (parseNatChars sg.2 : ℤ))
  else none

/-- Round `q * 10^6` to the nearest integer (half-up), for `0 ≤ q`: the
rational model of the decimal rounding inside `f"{num:.6f}"`. -/
def roundN6 (q : ℚ) : ℕ :=
  (2 * q.num.toNat * 1000000 + q.den) / (2 * q.den)

/-- Python `str.rstrip(c)` for a single character. -/
def rstripChar (c : Char) (l : List Char) : List Char :=
  (l.reverse.dropWhile (fun x => x = c)).reverse

/-- Left-pad with `'0'` to six characters. -/
def pad6 (l : List Char) : List Char := List.replicate (6 - l.length) '0' ++ l

/-- `f"{num:.6f}".rstrip('0').rstrip('.')` (for the nonnegative values the
code reaches). -/
def fmt6 (q : ℚ) : List Char :=
  let n := roundN6 q
  rstripChar '.' (rstripChar '0'
    (natToChars (n / 1000000) ++ '.' :: pad6 (natToChars (n % 1000000))))

/-- The re-serialization rule applied after a successful numeric parse:
`str(int(num))` if the value is integral, else the 6-fractional-digit
format with trailing zeros and dot stripped. -/
def formatNum (q : ℚ) : List Char :=
  if q.den = 1 then intToChars q.num else fmt6 q

/-! ### Unit vocabulary -/

/-- Greedy match of the regex fragment `\^?2?`. -/
def optCaret2 : List Char → List Char
  | '^' :: t => '^' :: (match t with | '2' :: _ => ['2'] | _ => [])
  | '2' :: _ => ['2']
  | _ => []

/-- First matching alternative of the unit group
`(mm|cm|m|km|kg|g|mg|s|ms|rad/s\^?2?|m/s\^?2?|m/s|N|J|W|Hz|°|degrees?)`,
tried in source order at the given position (Python alternation is
first-match, not longest-match).  The matched text is returned already
lowercased, since every consumer of the group lowercases it. -/
def unitAt (l : List Char) : Option String :=
  if ciPrefix ['m', 'm'] l then some "mm"
  else if ciPrefix ['c', 'm'] l then some "cm"
  else if ciPrefix ['m'] l then some "m"
  else if ciPrefix ['k', 'm'] l then some "km"
  else if ciPrefix ['k', 'g'] l then some "kg"
  else if ciPrefix ['g'] l then some "g"
  else if ciPrefix ['m', 'g'] l then some "mg"
  else if ciPrefix ['s'] l then some "s"
  else if ciPrefix ['m', 's'] l then some "ms"
  else if ciPrefix ['r', 'a', 'd', '/', 's'] l then
    some (String.mk ('r' :: 'a' :: 'd' :: '/' :: 's' :: optCaret2 (l.drop 5)))
  else if ciPrefix ['m', '/', 's'] l then
    some (String.mk ('m' :: '/' :: 's' :: optCaret2 (l.drop 3)))
  else if ciPrefix ['m', '/', 's'] l then some "m/s"
  else if ciPrefix ['n'] l then some "n"
  else if ciPrefix ['j'] l then some "j"
  else if ciPrefix ['w'] l then some "w"
  else if ciPrefix ['h', 'z'] l then some "hz"
  else if ciPrefix ['°'] l then some "°"
  else if ciPrefix ['d', 'e', 'g', 'r', 'e', 'e'] l then
    some (if ciPrefix ['s'] (l.drop 6) then "degrees" else "degree")
  else none

/-- The unit group of `extract_number_and_unit`'s regex: the same
alternation with the (unreachable) duplicate alternatives `|cm|mm` appended
at the end. -/
def unitAtExtract (l : List Char) : Option String :=
  match unitAt l with
  | some u => some u
  | none =>
    if ciPrefix ['c', 'm'] l then some "cm"
    else if ciPrefix ['m', 'm'] l then some "mm"
    else none

/-- `re.search(r'([\d.]+)...')`: the first maximal `[\d.]+` run and the text
following it. -/
def findToken : List Char → Option (List Char × List Char)
  | [] => none
  | c :: t =>
    if tokChar c then some ((c :: t).takeWhile tokChar, (c :: t).dropWhile tokChar)
    else findToken t

/-- The optional unit group matched after `\s*` following the number. -/
def matchUnit (rest : List Char) : Option String :=
  unitAt (rest.dropWhile pySpace)

/-- The same for `extract_number_and_unit`'s regex. -/
def matchUnitExtract (rest : List Char) : Option String :=
  unitAtExtract (rest.dropWhile pySpace)

/-- The inline unit-conversion chain inside `normalize_answer` (the unit is
already lowercased). -/
def normUnitConvert (q : ℚ) (u : Option String) : ℚ :=
  match u with
  | none => q
  | some unit =>
    if unit = "km" then qMul q 1000
    else if unit = "cm" then qDiv q 100
    else if unit = "mm" then qDiv q 1000
    else if unit = "g" then qDiv q 1000
    else if unit = "mg" then qDiv q 1000000
    else if unit = "ms" then qDiv q 1000
    else q

/-- `convert_to_base_unit(value, unit)` from the source. -/
def convert_to_base_unit (value : ℚ) (unit : String) : ℚ :=
  if unit = "" then value
  else
    let u := String.mk (lowerChars unit.data)
    if u = "km" then qMul value 1000
    else if u = "cm" then qDiv value 100
    else if u = "mm" then qDiv value 1000
    else if u = "g" then qDiv value 1000
    else if u = "mg" then qDiv value 1000000
    else if u = "ms" then qDiv value 1000
    else value

/-! ### normalize_answer / extract_number_and_unit / answers_match -/

/-- `normalize_answer(answer, answer_type)` from the source. -/
def normalize_answer (answer : String) (answer_type : String) : String :=
  if answer.data.isEmpty then ""
  else
    let a := cleanupChars answer.data
    let a2 :=
      if answer_type = "integer" ∨ answer_type = "float" then
        match findToken a with
        | some (tok, rest) =>
          match pyTokenFloat tok with
          | some v => formatNum (normUnitConvert v (matchUnit rest))
          | none => a
        | none =>
          if a.contains '.' then
            match pyFloatFull a with
            | some v => formatNum v
            | none => a
          else
            match pyIntFull a with
            | some n => intToChars n
            | none => a
      else a
    String.mk (lowerChars a2)

/-- `extract_number_and_unit(answer)` from the source: `(value, unit)` with
`(none, none)` on failure. -/
def extract_number_and_unit (answer : String) : Option ℚ × Option String :=
  let fallback : Option ℚ × Option String :=
    match pyFloatFull (pyStripChars answer.data) with
    | some v => (some v, none)
    | none => (none, none)
  match findToken answer.data with
  | some (tok, rest) =>
    match pyTokenFloat tok with
    | some v => (some v, matchUnitExtract rest)
    | none => fallback
  | none => fallback

/-- The `abs(x - y) < 0.001` tolerance test. -/
def closeTo (x y : ℚ) : Bool := ratAbs (qSub x y) < mkRat 1 1000

/-- Python substring containment (`needle in haystack`); the empty needle is
contained in everything. -/
def isInfixB : List Char → List Char → Bool
  | n, [] => n.isEmpty
  | n, c :: t => List.isPrefixOf n (c :: t) || isInfixB n t

/-- `convert_to_base_unit(num, unit) if unit else num`. -/
def baseVal (x : ℚ) (u : Option String) : ℚ :=
  match u with
  | some s => convert_to_base_unit x s
  | none => x

/-- The asymmetric cross-checks of `answers_match` (`if unit1 and not unit2
... elif unit2 and not unit1 ...`). -/
def numericCross (x y : ℚ) (u1 u2 : Option String) : Bool :=
  match u1, u2 with
  | some s1, none => closeTo (convert_to_base_unit x s1) y
  | none, some s2 => closeTo x (convert_to_base_unit y s2)
  | _, _ => false

/-- The comparison of the two extracted `(number, unit)` pairs inside
`answers_match` (`if num1 is not None and num2 is not None: ...`). -/
def numericPrimary : Option ℚ × Option String → Option ℚ × Option String → Bool
  | (some x, u1), (some y, u2) =>
    closeTo x y ||
      ((u1.isSome || u2.isSome) &&
        (closeTo (baseVal x u1) (baseVal y u2) || numericCross x y u1 u2))
  | _, _ => false

/-- The final `float(norm1)` / `float(norm2)` fallback of `answers_match`. -/
def floatFallbackMatch : Option ℚ → Option ℚ → Bool
  | some x, some y => closeTo x y
  | _, _ => false

/-- The numeric fallback section of `answers_match` (reached when the
normalized strings differ and the type is numeric). -/
def numericMatch (a1 a2 : String) (n1 n2 : String) : Bool :=
  numericPrimary (extract_number_and_unit a1) (extract_number_and_unit a2) ||
    floatFallbackMatch (pyFloatFull n1.data) (pyFloatFull n2.data)

/-- `answers_match(answer1, answer2, answer_type)` from the source, written
as the disjunction of its early-return tests. -/
def answers_match (answer1 answer2 answer_type : String) : Bool :=
  let norm1 := normalize_answer answer1 answer_type
  let norm2 := normalize_answer answer2 answer_type
  (norm1 == norm2) ||
    ((answer_type == "integer" || answer_type == "float") &&
      numericMatch answer1 answer2 norm1 norm2) ||
    ((answer_type == "string") &&
      (isInfixB norm1.data norm2.data || isInfixB norm2.data norm1.data))

/-! ### Data model for the aggregate metrics -/

/-- A problem record, as read by the evaluator (`load_problems`). -/
structure Problem where
  correct_answer : String
  answer_type : String
  category : String
  problem_text : String
deriving DecidableEq

/-- A final-result record; `winning_answer` stands for
`result_data.get('judgment', {}).get('winning_answer', '')`. -/
structure ResultData where
  winning_answer : String
deriving DecidableEq

/-- A per-solver candidate; `final_answer` stands for
`solution.get('final_answer', '')`. -/
structure Solution where
  final_answer : String
deriving DecidableEq

/-- One entry of the `by_category` dictionary. -/
structure CategoryStat where
  total : ℕ
  correct : ℕ
  accuracy : ℚ
deriving DecidableEq

/-- The record returned by `calculate_system_metrics`. -/
structure SystemMetrics where
  total_problems : ℕ
  processed_problems : ℕ
  correct_final_answers : ℕ
  overall_accuracy : ℚ
  by_category : List (String × CategoryStat)
deriving DecidableEq

/-- Create-if-absent then increment, as the Python loop does on the
`by_category` dict (insertion order preserved). -/
def bumpCategory (cats : List (String × CategoryStat)) (c : String) (ok : Bool) :
    List (String × CategoryStat) :=
  match cats with
  | [] => [(c, ⟨1, if ok then 1 else 0, 0⟩)]
  | (k, st) :: t =>
    if k = c then
      (k, ⟨st.total + 1, st.correct + (if ok then 1 else 0), st.accuracy⟩) :: t
    else (k, st) :: bumpCategory t c ok

/-- The loop body of `calculate_system_metrics` (skips results whose problem
id is not in `problems`; the two `answers_match` calls in the source compute
the same pure value, folded into one here). -/
def systemFold (problems : List (String × Problem))
    (acc : ℕ × List (String × CategoryStat)) (r : String × ResultData) :
    ℕ × List (String × CategoryStat) :=
  match List.lookup r.1 problems with
  | none => acc
  | some p =>
    let ok := answers_match r.2.winning_answer p.correct_answer p.answer_type
    (acc.1 + (if ok then 1 else 0), bumpCategory acc.2 p.category ok)

/-- `calculate_system_metrics(problems, results)` from the source.  Note the
`overall_accuracy` denominator is `len(results)`, while `correct_count` only
counts results whose problem id exists. -/
def calculate_system_metrics (problems : List (String × Problem))
    (results : List (String × ResultData)) : SystemMetrics :=
  let acc := results.foldl (systemFold problems) (0, [])
  { total_problems := problems.length
    processed_problems := results.length
    correct_final_answers := acc.1
    overall_accuracy := if 0 < results.length then mkRat acc.1 results.length else 0
    by_category := acc.2.map (fun p =>
      (p.1,
        { p.2 with
          accuracy := if 0 < p.2.total then mkRat p.2.correct p.2.total else p.2.accuracy })) }

/-- The number of result entries whose problem id exists in `problems` —
the denominator the specification prescribes for `overall_accuracy`. -/
def evaluatedCount (problems : List (String × Problem))
    (results : List (String × ResultData)) : ℕ :=
  (results.filter (fun r => (List.lookup r.1 problems).isSome)).length

/-- The record returned by `calculate_consensus_rate`.  `semi_consensus`
models the source's `partial_consensus` counter (2 distinct answers). -/
structure ConsensusMetrics where
  total : ℕ
  full_consensus : ℕ
  semi_consensus : ℕ
  no_consensus : ℕ
  consensus_rate : ℚ
deriving DecidableEq

/-- The loop body of `calculate_consensus_rate`: skip problems missing from
`problems` (and, when a results filter is supplied, missing from `results`),
then classify by the number of distinct normalized answers. -/
def consensusFold (problems : List (String × Problem))
    (results : Option (List (String × ResultData)))
    (acc : ConsensusMetrics) (e : String × List (String × Solution)) :
    ConsensusMetrics :=
  match List.lookup e.1 problems with
  | none => acc
  | some p =>
    let skip : Bool :=
      match results with
      | some rs => (List.lookup e.1 rs).isNone
      | none => false
    if skip then acc
    else
      let normalized :=
        (e.2.map (fun s => s.2.final_answer)).map (fun a => normalize_answer a p.answer_type)
      let uniq := normalized.dedup.length
      { acc with
        total := acc.total + 1
        full_consensus := acc.full_consensus + (if uniq = 1 then 1 else 0)
        semi_consensus := acc.semi_consensus + (if uniq = 2 then 1 else 0)
        no_consensus := acc.no_consensus + (if uniq ≠ 1 ∧ uniq ≠ 2 then 1 else 0) }

/-- `calculate_consensus_rate(problems, stage1_solutions, results)` from the
source. -/
def calculate_consensus_rate (problems : List (String × Problem))
    (stage1 : List (String × List (String × Solution)))
    (results : Option (List (String × ResultData))) : ConsensusMetrics :=
  let m := stage1.foldl (consensusFold problems results) ⟨0, 0, 0, 0, 0⟩
  { m with
    consensus_rate :=
      if 0 < m.total then mkRat m.full_consensus m.total else 0 }

/-- The record returned by `calculate_improvement_rate`. -/
structure ImprovementMetrics where
  total_with_refinement : ℕ
  improved : ℕ
  worsened : ℕ
  unchanged : ℕ
  improvement_rate : ℚ
deriving DecidableEq

/-- Python dict insertion: update in place if the key exists, else append. -/
def dictInsert {α : Type} (d : List (String × α)) (k : String) (v : α) :
    List (String × α) :=
  if (List.lookup k d).isSome then d.map (fun p => if p.1 = k then (k, v) else p)
  else d ++ [(k, v)]

/-- Build a Python dict (insertion-ordered, last value wins) from pairs. -/
def buildDict {α : Type} (l : List (String × α)) : List (String × α) :=
  l.foldl (fun d p => dictInsert d p.1 p.2) []

/-- One agent's contribution to the `any_improved` / `any_worsened` flags of
`calculate_improvement_rate`: a missing refined candidate defaults to the
original answer (`refined_answers.get(solver_id, original)`). -/
def flagStep (correct_answer answer_type : String)
    (refined_answers : List (String × String)) (acc : Bool × Bool)
    (e : String × String) : Bool × Bool :=
  let original := e.2
  let refined := (List.lookup e.1 refined_answers).getD original
  let oc := answers_match original correct_answer answer_type
  let rc := answers_match refined correct_answer answer_type
  (acc.1 || (!oc && rc), acc.2 || (oc && !rc))

/-- The loop body of `calculate_improvement_rate` over one problem: skip if
the problem is missing from `problems` or from `refined_solutions`;
otherwise classify it into exactly one bucket, `improved` taking precedence
over `worsened`. -/
def improvementFold (problems : List (String × Problem))
    (refined : List (String × List (String × Solution)))
    (acc : ImprovementMetrics) (e : String × List (String × Solution)) :
    ImprovementMetrics :=
  match List.lookup e.1 problems, List.lookup e.1 refined with
  | some p, some rsols =>
    let original_answers := buildDict (e.2.map (fun s => (s.1, s.2.final_answer)))
    let refined_answers := buildDict (rsols.map (fun s => (s.1, s.2.final_answer)))
    let flags :=
      original_answers.foldl (flagStep p.correct_answer p.answer_type refined_answers)
        (false, false)
    { acc with
      total_with_refinement := acc.total_with_refinement + 1
      improved := acc.improved + (if flags.1 then 1 else 0)
      worsened := acc.worsened + (if !flags.1 && flags.2 then 1 else 0)
      unchanged := acc.unchanged + (if !flags.1 && !flags.2 then 1 else 0) }
  | _, _ => acc

/-- `calculate_improvement_rate(problems, stage1_solutions, refined_solutions)`
from the source. -/
def calculate_improvement_rate (problems : List (String × Problem))
    (stage1 : List (String × List (String × Solution)))
    (refined : List (String × List (String × Solution))) : ImprovementMetrics :=
  let m := stage1.foldl (improvementFold problems refined) ⟨0, 0, 0, 0, 0⟩
  { m with
    improvement_rate :=
      if 0 < m.total_with_refinement then mkRat m.improved m.total_with_refinement
      else 0 }

/-- The numeric parse inside `normalize_answer` fails on `a`: either no
`[\d.]+` token occurs in the cleaned-up string, or the token does not parse
as a float. -/
def normParseFails (a : String) : Bool :=
  match findToken (cleanupChars a.data) with
  | none => true
  | some (tok, _) => (pyTokenFloat tok).isNone

/-- Both parses inside `extract_number_and_unit` fail on `a`. -/
def extractParseFails (a : String) : Bool :=
  (match findToken a.data with
   | none => true
   | some (tok, _) => (pyTokenFloat tok).isNone) &&
    (pyFloatFull (pyStripChars a.data)).isNone

/-- The numeric parse inside `normalize_answer` succeeds on `a`. -/
def numericParseOk (a : String) : Bool :=
  match findToken (cleanupChars a.data) with
  | some (tok, _) => (pyTokenFloat tok).isSome
  | none => false

/-- The ten decimal digit characters. -/
def decDigits : List Char := ['0', '1', '2', '3', '4', '5', '6', '7', '8', '9']

/-- The characters a formatted number can consist of. -/
def tokSet : List Char := '.' :: decDigits

/-! ## Bridge lemmas for the kernel-computable rational arithmetic -/

theorem den_cast_ne_zero (q : ℚ) : (q.den : ℚ) ≠ 0 := by
  exact_mod_cast q.den_nz

theorem mul_den_eq_num (a : ℚ) : a * (a.den : ℚ) = a.num := by
  nth_rewrite 1 [← Rat.num_div_den a]
  exact div_mul_cancel₀ _ (den_cast_ne_zero a)

theorem qAdd_eq (a b : ℚ) : qAdd a b = a + b := by
  rw [qAdd, Rat.mkRat_eq_div]
  push_cast
  conv_rhs => rw [← Rat.num_div_den a, ← Rat.num_div_den b]
  rw [div_add_div _ _ (den_cast_ne_zero a) (den_cast_ne_zero b)]
  ring

theorem qMul_eq (a b : ℚ) : qMul a b = a * b := by
  rw [qMul, Rat.mkRat_eq_div]
  push_cast
  conv_rhs => rw [← Rat.num_div_den a, ← Rat.num_div_den b]
  rw [div_mul_div_comm]

theorem qSub_eq (a b : ℚ) : qSub a b = a - b := by
  rw [qSub, qAdd_eq, sub_eq_add_neg]

theorem qDiv_eq (a b : ℚ) : qDiv a b = a / b := by
  rw [qDiv, Rat.divInt_eq_div]
  push_cast
  by_cases hb : b = 0
  · simp [hb]
  · have hbn : (b.num : ℚ) ≠ 0 := by
      simpa [Rat.num_eq_zero] using hb
    rw [div_eq_div_iff (mul_ne_zero (den_cast_ne_zero a) hbn) hb,
      ← mul_den_eq_num a, ← mul_den_eq_num b]
    ring

theorem ratAbs_eq (q : ℚ) : ratAbs q = |q| := by
  rw [ratAbs]
  by_cases h : q < 0
  · rw [if_pos h, abs_of_neg h]
  · rw [if_neg h, abs_of_nonneg (not_lt.mp h)]

theorem closeTo_eq (x y : ℚ) : closeTo x y = decide (|x - y| < 1 / 1000) := by
  rw [closeTo]
  apply decide_eq_decide.mpr
  rw [ratAbs_eq, qSub_eq, Rat.mkRat_eq_div]
  norm_num

/-! ## Symmetry of the matcher -/

theorem closeTo_comm (x y : ℚ) : closeTo x y = closeTo y x := by
  rw [closeTo_eq, closeTo_eq]
  apply decide_eq_decide.mpr
  rw [abs_sub_comm]

theorem numericCross_comm (x y : ℚ) (u1 u2 : Option String) :
    numericCross x y u1 u2 = numericCross y x u2 u1 := by
  cases u1 <;> cases u2 <;> simp only [numericCross] <;> rw [closeTo_comm]

theorem stringBEq_comm (x y : String) : (x == y) = (y == x) := by
  by_cases h : x = y
  · rw [h]
  · rw [beq_eq_false_iff_ne.mpr h, beq_eq_false_iff_ne.mpr (Ne.symm h)]

theorem numericPrimary_comm (p q : Option ℚ × Option String) :
    numericPrimary p q = numericPrimary q p := by
  rcases p with ⟨x?, u1⟩
  rcases q with ⟨y?, u2⟩
  cases x? <;> cases y? <;> try rfl
  simp only [numericPrimary]
  rw [closeTo_comm, Bool.or_comm (Option.isSome u1), closeTo_comm (baseVal _ u1),
    numericCross_comm]

theorem floatFallbackMatch_comm (p q : Option ℚ) :
    floatFallbackMatch p q = floatFallbackMatch q p := by
  cases p <;> cases q <;> try rfl
  simp only [floatFallbackMatch]
  rw [closeTo_comm]

theorem numericMatch_comm (a b n1 n2 : String) :
    numericMatch a b n1 n2 = numericMatch b a n2 n1 := by
  rw [numericMatch, numericMatch, numericPrimary_comm, floatFallbackMatch_comm]

/-- C1: `answers_match` is symmetric in its two answer arguments, for every
answer type. -/
theorem c1_answers_match_symmetric (a b t : String) :
    answers_match a b t = answers_match b a t := by
  simp only [answers_match]
  rw [stringBEq_comm (normalize_answer a t) (normalize_answer b t),
    numericMatch_comm a b (normalize_answer a t) (normalize_answer b t),
    Bool.or_comm (isInfixB (normalize_answer a t).data (normalize_answer b t).data)]

/-! ## Concrete behaviour of the unit extractor and the tolerance -/

/-- C2: because the regex alternation tries `m` before `ms` and `mg`, the
extractor returns unit `"m"` for both `"5 ms"` and `"5 mg"`, so
normalization leaves the value `5` unconverted (instead of dividing by
1000 resp. 1000000 as the conversion table — still present in
`convert_to_base_unit` — prescribes). -/
theorem c2_ms_mg_units_never_extracted :
    extract_number_and_unit "5 ms" = (some 5, some "m") ∧
    normalize_answer "5 ms" "float" = "5" ∧
    extract_number_and_unit "5 mg" = (some 5, some "m") ∧
    normalize_answer "5 mg" "float" = "5" ∧
    convert_to_base_unit 5 "ms" = mkRat 5 1000 ∧
    convert_to_base_unit 5 "mg" = mkRat 5 1000000 ∧
    normalize_answer "5 ms" "float" ≠ "0.005" ∧
    normalize_answer "5 mg" "float" ≠ "0.000005" := by
  decide

/-- C4: the strict absolute tolerance `0.001` of the matcher at its
boundary: difference `0.0005` matches, difference `0.002` does not. -/
theorem c4_tolerance_boundary :
    answers_match "1.0005" "1.0" "float" = true ∧
    answers_match "1.002" "1.0" "float" = false := by
  decide

/-! ## The empty string against the string-typed matcher (C3) -/

/-- C3 counterexample: for the `string` answer type the empty string
matches every answer (Python's `"" in s` is always true), so
`answers_match "" b t` can be true although `normalize_answer b t` is not
empty. -/
theorem c3_empty_matches_nonempty_counterexample :
    answers_match "" "hello" "string" = true ∧
    normalize_answer "hello" "string" = "hello" ∧
    normalize_answer "hello" "string" ≠ "" := by
  decide

/-! ## Sign and surrounding text in numeric normalization (C5) -/

/-- C5 counterexample: the numeric regex grabs the first digit run anywhere
in the string, so the sign of `"-5"` is dropped and the surrounding words
of `"approximately 5 apples"` are discarded rather than returned
unchanged. -/
theorem c5_sign_and_text_counterexample :
    normalize_answer "-5" "integer" = "5" ∧
    normalize_answer "-5" "integer" ≠ "-5" ∧
    normalize_answer "approximately 5 apples" "integer" = "5" ∧
    normalize_answer "approximately 5 apples" "integer" ≠ "approximately 5 apples" := by
  decide

/-! ## Idempotence of normalization (C6) -/

/-- C6 counterexample: normalization is not idempotent on all strings for a
numeric type: one pass strips only one trailing `dollars` from
`"x dollars dollars"` (the end-anchored regex matches once), so a second
pass still changes the string. -/
theorem c6_idempotence_counterexample :
    normalize_answer "x dollars dollars" "integer" = "x dollars" ∧
    normalize_answer "x dollars" "integer" = "x" ∧
    normalize_answer (normalize_answer "x dollars dollars" "integer") "integer" ≠
      normalize_answer "x dollars dollars" "integer" := by
  decide

/-! ## Overall accuracy denominator (C8) -/

/-- C8 counterexample: with one matching and one unmatched result entry,
the code reports `overall_accuracy = 1/2` (denominator `len(results)`),
not `1/1` (denominator = number of evaluated results) as the claim
states. -/
theorem c8_overall_accuracy_denominator_counterexample :
    (calculate_system_metrics [("p1", ⟨"1", "integer", "math", "q"⟩)]
        [("p1", ⟨"1"⟩), ("p2", ⟨"1"⟩)]).correct_final_answers = 1 ∧
    evaluatedCount [("p1", ⟨"1", "integer", "math", "q"⟩)]
        [("p1", ⟨"1"⟩), ("p2", ⟨"1"⟩)] = 1 ∧
    (calculate_system_metrics [("p1", ⟨"1", "integer", "math", "q"⟩)]
        [("p1", ⟨"1"⟩), ("p2", ⟨"1"⟩)]).overall_accuracy = mkRat 1 2 ∧
    (calculate_system_metrics [("p1", ⟨"1", "integer", "math", "q"⟩)]
        [("p1", ⟨"1"⟩), ("p2", ⟨"1"⟩)]).overall_accuracy ≠ 1 := by
  decide

/-! ## Consensus classification (C9) -/

/-- C9 counterexample: `calculate_consensus_rate` has no "exactly three
agents" restriction — a problem with a single first-stage candidate is
included (and counted as full consensus), while the claim says only
problems with candidates from exactly three agents are evaluated. -/
theorem c9_single_agent_counterexample :
    (calculate_consensus_rate [("p1", ⟨"7", "integer", "math", "q"⟩)]
        [("p1", [("s1", ⟨"7"⟩)])] none) =
      ⟨1, 1, 0, 0, 1⟩ := by
  decide

/-- C9 amended: every stage-1 problem found in `problems` (and in `results`
when the filter is supplied) is classified by its number of distinct
normalized answers — 1 distinct is full, 2 is partial, anything else
(including a single-candidate problem's 1, counted as full, or 3 distinct
as none) — regardless of how many agents answered; `consensus_rate` is
full/total.  `["34","34","35"]` is partial, `["1","1","1"]` is full, a
problem absent from the supplied results is skipped. -/
theorem c9_consensus_classification_amended :
    (calculate_consensus_rate
        [("p1", ⟨"34", "integer", "math", "q"⟩), ("p2", ⟨"1", "integer", "math", "q"⟩),
         ("p3", ⟨"7", "integer", "math", "q"⟩), ("p4", ⟨"1", "integer", "math", "q"⟩)]
        [("p1", [("s1", ⟨"34"⟩), ("s2", ⟨"34"⟩), ("s3", ⟨"35"⟩)]),
         ("p2", [("s1", ⟨"1"⟩), ("s2", ⟨"1"⟩), ("s3", ⟨"1"⟩)]),
         ("p3", [("s1", ⟨"7"⟩)]),
         ("p4", [("s1", ⟨"1"⟩), ("s2", ⟨"2"⟩), ("s3", ⟨"3"⟩)])]
        (some [("p1", ⟨""⟩), ("p2", ⟨""⟩), ("p3", ⟨""⟩)])) =
      ⟨3, 2, 1, 0, mkRat 2 3⟩ ∧
    (calculate_consensus_rate
        [("p1", ⟨"34", "integer", "math", "q"⟩), ("p2", ⟨"1", "integer", "math", "q"⟩),
         ("p3", ⟨"7", "integer", "math", "q"⟩), ("p4", ⟨"1", "integer", "math", "q"⟩)]
        [("p1", [("s1", ⟨"34"⟩), ("s2", ⟨"34"⟩), ("s3", ⟨"35"⟩)]),
         ("p2", [("s1", ⟨"1"⟩), ("s2", ⟨"1"⟩), ("s3", ⟨"1"⟩)]),
         ("p3", [("s1", ⟨"7"⟩)]),
         ("p4", [("s1", ⟨"1"⟩), ("s2", ⟨"2"⟩), ("s3", ⟨"3"⟩)])]
        none) =
      ⟨4, 2, 1, 1, mkRat 2 4⟩ := by
  decide

/-! ## Missing refined candidates in the improvement rate (C10) -/

theorem improvementFold_total_count (problems : List (String × Problem))
    (refined : List (String × List (String × Solution)))
    (l : List (String × List (String × Solution))) (acc : ImprovementMetrics) :
    (l.foldl (improvementFold problems refined) acc).total_with_refinement =
      acc.total_with_refinement +
        (l.filter (fun e =>
          (List.lookup e.1 problems).isSome && (List.lookup e.1 refined).isSome)).length := by
  induction l generalizing acc with
  | nil => simp
  | cons e t ih =>
    rw [List.foldl_cons, ih]
    rcases h1 : List.lookup e.1 problems with _ | p <;>
      rcases h2 : List.lookup e.1 refined with _ | rsols <;>
      simp [improvementFold, h1, h2, List.filter_cons] <;> omega

/-- C10: an agent with no refined candidate is scored with its original
answer (so it can flip neither flag and never makes the problem improved or
worsened), and a problem present in both the stage-1 and refined
collections is always counted in `total_with_refinement`. -/
theorem c10_missing_refined_candidate_neutral :
    (∀ (correct t : String) (refD : List (String × String)) (acc : Bool × Bool)
      (s orig : String), List.lookup s refD = none →
        flagStep correct t refD acc (s, orig) = acc) ∧
    (∀ (problems : List (String × Problem))
      (stage1 refined : List (String × List (String × Solution))),
        (calculate_improvement_rate problems stage1 refined).total_with_refinement =
          (stage1.filter (fun e =>
            (List.lookup e.1 problems).isSome &&
              (List.lookup e.1 refined).isSome)).length) := by
  constructor
  · intro correct t refD acc s orig h
    simp [flagStep, h]
  · intro problems stage1 refined
    show (stage1.foldl (improvementFold problems refined) ⟨0, 0, 0, 0, 0⟩).total_with_refinement = _
    rw [improvementFold_total_count]
    simp

/-- Witness for C10 at concrete inputs: a lone solver with no refined
candidate leaves the flags untouched, and the single shared problem is
counted. -/
theorem c10_missing_refined_candidate_witness :
    flagStep "1" "integer" [] (false, false) ("s1", "2") = (false, false) ∧
    (calculate_improvement_rate [("p1", ⟨"1", "integer", "math", "q"⟩)]
        [("p1", [("s1", ⟨"2"⟩)])] [("p1", [])]).total_with_refinement =
      ([("p1", [("s1", (⟨"2"⟩ : Solution))])].filter (fun e =>
        (List.lookup e.1 [("p1", (⟨"1", "integer", "math", "q"⟩ : Problem))]).isSome &&
          (List.lookup e.1 [("p1", ([] : List (String × Solution)))]).isSome)).length :=
  ⟨c10_missing_refined_candidate_neutral.1 "1" "integer" [] (false, false) "s1" "2" (by decide),
   c10_missing_refined_candidate_neutral.2 [("p1", ⟨"1", "integer", "math", "q"⟩)]
     [("p1", [("s1", ⟨"2"⟩)])] [("p1", [])]⟩

/-! ## The empty answer, amended (C3) -/

theorem numericPrimary_none_left (p : Option ℚ × Option String) :
    numericPrimary (none, none) p = false := by
  rcases p with ⟨y?, u2⟩
  cases y? <;> rfl

theorem floatFallbackMatch_none_left (q : Option ℚ) :
    floatFallbackMatch none q = false := by
  cases q <;> rfl

theorem isInfixB_nil (l : List Char) : isInfixB [] l = true := by
  cases l <;> rfl

/-- C3 amended: for any non-`string` answer type, `answers_match "" b t`
holds exactly when `normalize_answer b t` is empty; for the `string` type
the empty answer matches everything via the containment fallback. -/
theorem c3_empty_answer_matching_amended :
    (∀ (b t : String), t ≠ "string" →
      (answers_match "" b t = true ↔ normalize_answer b t = "")) ∧
    (∀ b : String, answers_match "" b "string" = true) := by
  have hnorm : ∀ t : String, normalize_answer "" t = "" := fun _ => rfl
  have hext : extract_number_and_unit "" = (none, none) := rfl
  have hfloat : pyFloatFull ("" : String).data = none := rfl
  have hnum : ∀ (b n2 : String), numericMatch "" b "" n2 = false := by
    intro b n2
    rw [numericMatch, hext, numericPrimary_none_left]
    have : pyFloatFull ("" : String).data = none := rfl
    rw [show ("" : String).data = [] from rfl] at this ⊢
    rw [show pyFloatFull [] = none from rfl, floatFallbackMatch_none_left, Bool.or_false]
  constructor
  · intro b t ht
    simp only [answers_match, hnorm, hnum, beq_eq_false_iff_ne.mpr ht, Bool.and_false,
      Bool.false_and, Bool.or_false, Bool.false_or]
    constructor
    · intro h
      exact ((beq_iff_eq).mp h).symm
    · intro h
      rw [h]
      rfl
  · intro b
    simp only [answers_match, hnorm]
    rw [isInfixB_nil]
    simp

/-- Witness for C3 amended at concrete inputs. -/
theorem c3_empty_answer_matching_witness :
    (answers_match "" "7" "integer" = true ↔ normalize_answer "7" "integer" = "") ∧
    answers_match "" "xyz" "string" = true :=
  ⟨c3_empty_answer_matching_amended.1 "7" "integer" (by decide),
   c3_empty_answer_matching_amended.2 "xyz"⟩

/-! ## Failure paths of the numeric parses (C5 amended, C7) -/

theorem mem_of_mem_dropWhile {c : Char} {p : Char → Bool} {l : List Char}
    (h : c ∈ l.dropWhile p) : c ∈ l :=
  (List.dropWhile_sublist p).subset h

theorem mem_of_mem_pyStrip {c : Char} {l : List Char} (h : c ∈ pyStripChars l) :
    c ∈ l := by
  rw [pyStripChars] at h
  rw [List.mem_reverse] at h
  have h2 := mem_of_mem_dropWhile h
  rw [List.mem_reverse] at h2
  exact mem_of_mem_dropWhile h2

theorem findToken_none_of (l : List Char) (h : ∀ c ∈ l, tokChar c = false) :
    findToken l = none := by
  induction l with
  | nil => rfl
  | cons c t ih =>
    rw [findToken, if_neg]
    · exact ih fun x hx => h x (List.mem_cons_of_mem c hx)
    · simp [h c (List.mem_cons_self c t)]

theorem of_findToken_none (l : List Char) (h : findToken l = none) :
    ∀ c ∈ l, tokChar c = false := by
  induction l with
  | nil => intro c hc; cases hc
  | cons c t ih =>
    rw [findToken] at h
    by_cases hc : tokChar c
    · rw [if_pos hc] at h; cases h
    · rw [if_neg hc] at h
      intro x hx
      rcases List.mem_cons.mp hx with rfl | hx
      · exact Bool.eq_false_iff.mpr hc
      · exact ih h x hx

theorem not_digit_of_not_tokChar {c : Char} (h : tokChar c = false) :
    c.isDigit = false := by
  rcases Bool.or_eq_false_iff.mp h with ⟨h1, _⟩
  exact h1

theorem ne_dot_of_not_tokChar {c : Char} (h : tokChar c = false) : c ≠ '.' := by
  rcases Bool.or_eq_false_iff.mp h with ⟨_, h2⟩
  exact fun hc => by simp [hc] at h2

theorem contains_dot_false (l : List Char) (h : ∀ c ∈ l, tokChar c = false) :
    l.contains '.' = false := by
  rw [Bool.eq_false_iff]
  intro hc
  have : '.' ∈ l := by
    simpa using hc
  exact ne_dot_of_not_tokChar (h _ this) rfl

theorem signSplit_snd_subset (s : List Char) : ∀ c ∈ (signSplit s).2, c ∈ s := by
  rcases s with _ | ⟨c0, t⟩
  · intro c hc; exact hc
  · show ∀ c ∈ (if c0 = '+' then ((1 : ℤ), t) else if c0 = '-' then (-1, t) else (1, c0 :: t)).2,
      c ∈ c0 :: t
    by_cases h1 : c0 = '+'
    · rw [if_pos h1]; intro c hc; exact List.mem_cons_of_mem _ hc
    · rw [if_neg h1]
      by_cases h2 : c0 = '-'
      · rw [if_pos h2]; intro c hc; exact List.mem_cons_of_mem _ hc
      · rw [if_neg h2]; intro c hc; exact hc

theorem pyIntFull_none_of_no_digit (l : List Char)
    (h : ∀ c ∈ l, c.isDigit = false) : pyIntFull l = none := by
  simp only [pyIntFull]
  rcases hsg : (signSplit (pyStripChars l)).2 with _ | ⟨c, u⟩
  · rw [if_neg]
    rintro ⟨hne, -⟩
    exact hne rfl
  · have hc : c.isDigit = false := by
      have hmem : c ∈ pyStripChars l :=
        signSplit_snd_subset _ c (hsg ▸ List.mem_cons_self c u)
      exact h _ (mem_of_mem_pyStrip hmem)
    rw [if_neg]
    rintro ⟨-, hall⟩
    rw [List.all_cons, Bool.and_eq_true, hc] at hall
    exact Bool.false_ne_true hall.1

/-- On any failed numeric parse, `normalize_answer` returns the cleaned-up
string lowercased (shared failure-path lemma). -/
theorem normalize_answer_failure (a t : String) (h : normParseFails a = true) :
    normalize_answer a t = String.mk (lowerChars (cleanupChars a.data)) := by
  cases hemp : a.data.isEmpty with
  | true =>
    have ha : a.data = [] := by simpa using hemp
    simp only [normalize_answer, hemp, if_true]
    rw [ha]
    rfl
  | false =>
    simp only [normalize_answer, hemp]
    simp only [Bool.false_eq_true, if_false]
    by_cases htype : t = "integer" ∨ t = "float"
    · simp only [if_pos htype]
      rcases hft : findToken (cleanupChars a.data) with _ | ⟨tok, rest⟩
      · have hnotok := of_findToken_none _ hft
        have hdig : ∀ c ∈ cleanupChars a.data, c.isDigit = false :=
          fun c hc => not_digit_of_not_tokChar (hnotok c hc)
        simp only [hft, contains_dot_false _ hnotok,
          pyIntFull_none_of_no_digit _ hdig, Bool.false_eq_true, if_false]
      · have htokf : pyTokenFloat tok = none := by
          rw [normParseFails, hft] at h
          simpa using h
        simp only [hft, htokf]
    · simp only [if_neg htype]

/-- C5 amended: the first digit/dot run anywhere in the string is parsed and
re-serialized — `"-5"` loses its sign and `"approximately 5 apples"` is
collapsed to `"5"` — and only a string containing no digit and no `'.'`
is returned unchanged apart from trimming/stripping/collapsing and
lower-casing. -/
theorem c5_first_number_wins_amended :
    normalize_answer "-5" "integer" = "5" ∧
    normalize_answer "approximately 5 apples" "integer" = "5" ∧
    (∀ (a t : String), (cleanupChars a.data).all (fun c => !tokChar c) = true →
      normalize_answer a t = String.mk (lowerChars (cleanupChars a.data))) := by
  refine ⟨by decide, by decide, ?_⟩
  intro a t h
  apply normalize_answer_failure
  have hn : findToken (cleanupChars a.data) = none :=
    findToken_none_of _ (fun c hc => by simpa using List.all_eq_true.mp h c hc)
  rw [normParseFails, hn]

/-- Witness for the general part of C5 amended at a digit-free input. -/
theorem c5_first_number_wins_witness :
    (cleanupChars ("no digits here" : String).data).all (fun c => !tokChar c) = true ∧
    normalize_answer "no digits here" "integer" =
      String.mk (lowerChars (cleanupChars ("no digits here" : String).data)) :=
  ⟨by decide, c5_first_number_wins_amended.2.2 "no digits here" "integer" (by decide)⟩

/-- C7: normalization and extraction degrade gracefully — whenever the
numeric parses fail, `normalize_answer` returns the trimmed, stripped,
whitespace-collapsed, lower-cased text, and `extract_number_and_unit`
returns `(none, none)`; both are total functions of their inputs. -/
theorem c7_graceful_degradation (a t : String) :
    (normParseFails a = true →
      normalize_answer a t = String.mk (lowerChars (cleanupChars a.data))) ∧
    (extractParseFails a = true → extract_number_and_unit a = (none, none)) := by
  constructor
  · exact normalize_answer_failure a t
  · intro h
    rw [extractParseFails, Bool.and_eq_true] at h
    obtain ⟨h1, h2⟩ := h
    have hf : pyFloatFull (pyStripChars a.data) = none := by simpa using h2
    simp only [extract_number_and_unit]
    rcases hft : findToken a.data with _ | ⟨tok, rest⟩
    · simp only [hft, hf]
    · have htok : pyTokenFloat tok = none := by
        simp only [hft] at h1
        simpa using h1
      simp only [hft, htok, hf]

/-- Witness for C7 at the unparseable numeric input `"1.2.3"`. -/
theorem c7_graceful_degradation_witness :
    normalize_answer "1.2.3" "float" =
      String.mk (lowerChars (cleanupChars ("1.2.3" : String).data)) ∧
    extract_number_and_unit "1.2.3" = (none, none) :=
  ⟨(c7_graceful_degradation "1.2.3" "float").1 (by decide),
   (c7_graceful_degradation "1.2.3" "float").2 (by decide)⟩

/-! ## Accuracy ratios, amended (C8) -/

theorem bumpCategory_invariant (cats : List (String × CategoryStat)) (c : String)
    (ok : Bool) (hc : ∀ p ∈ cats, 0 < p.2.total ∧ p.2.correct ≤ p.2.total) :
    ∀ p ∈ bumpCategory cats c ok, 0 < p.2.total ∧ p.2.correct ≤ p.2.total := by
  induction cats with
  | nil =>
    intro p hp
    rw [bumpCategory, List.mem_singleton] at hp
    subst hp
    cases ok <;> simp
  | cons e t ih =>
    rcases e with ⟨k, st⟩
    rw [bumpCategory]
    by_cases hk : k = c
    · rw [if_pos hk]
      intro p hp
      rcases List.mem_cons.mp hp with rfl | hp
      · obtain ⟨h1, h2⟩ := hc (k, st) (List.mem_cons_self _ _)
        simp only at h1 h2
        cases ok <;> simp <;> omega
      · exact hc p (List.mem_cons_of_mem _ hp)
    · rw [if_neg hk]
      intro p hp
      rcases List.mem_cons.mp hp with rfl | hp
      · exact hc (k, st) (List.mem_cons_self _ _)
      · exact ih (fun q hq => hc q (List.mem_cons_of_mem _ hq)) p hp

theorem systemFold_invariant (problems : List (String × Problem)) :
    ∀ (l : List (String × ResultData)) (acc : ℕ × List (String × CategoryStat)),
      (∀ p ∈ acc.2, 0 < p.2.total ∧ p.2.correct ≤ p.2.total) →
      ∀ p ∈ (l.foldl (systemFold problems) acc).2, 0 < p.2.total ∧ p.2.correct ≤ p.2.total := by
  intro l
  induction l with
  | nil => intro acc hacc; exact hacc
  | cons r t ih =>
    intro acc hacc
    rw [List.foldl_cons]
    apply ih
    rcases hl : List.lookup r.1 problems with _ | p
    · simpa [systemFold, hl] using hacc
    · simp only [systemFold, hl]
      exact bumpCategory_invariant _ _ _ hacc

/-- C8 amended: `overall_accuracy` divides by the raw `len(results)`
(0.0 when empty), while every `by_category` entry carries an accuracy equal
to its own `correct / total` with a positive evaluated total. -/
theorem c8_accuracy_ratios_amended (problems : List (String × Problem))
    (results : List (String × ResultData)) :
    ((calculate_system_metrics problems results).overall_accuracy =
      if 0 < results.length then
        ((calculate_system_metrics problems results).correct_final_answers : ℚ) /
          results.length
      else 0) ∧
    (∀ (c : String) (st : CategoryStat),
      (c, st) ∈ (calculate_system_metrics problems results).by_category →
        0 < st.total ∧ st.correct ≤ st.total ∧
          st.accuracy = (st.correct : ℚ) / st.total) := by
  constructor
  · simp only [calculate_system_metrics]
    by_cases h : 0 < results.length
    · rw [if_pos h, if_pos h, Rat.mkRat_eq_div]
      push_cast
      rfl
    · rw [if_neg h, if_neg h]
  · intro c st hmem
    simp only [calculate_system_metrics, List.mem_map] at hmem
    obtain ⟨⟨c0, st0⟩, hmem0, heq⟩ := hmem
    obtain ⟨rfl, rfl⟩ : c0 = c ∧
        ({ st0 with accuracy := if 0 < st0.total then mkRat st0.correct st0.total
            else st0.accuracy } : CategoryStat) = st := by
      exact ⟨congrArg Prod.fst heq, congrArg Prod.snd heq⟩
    have h0 := systemFold_invariant problems results (0, []) (by simp) _ hmem0
    refine ⟨h0.1, h0.2, ?_⟩
    simp only [if_pos h0.1, Rat.mkRat_eq_div]
    push_cast
    rfl

/-- Witness for C8 amended on a one-problem, one-result collection. -/
theorem c8_accuracy_ratios_witness :
    ((calculate_system_metrics [("p1", ⟨"1", "integer", "math", "q"⟩)]
        [("p1", ⟨"1"⟩)]).overall_accuracy =
      if 0 < ([("p1", (⟨"1"⟩ : ResultData))] : List (String × ResultData)).length then
        ((calculate_system_metrics [("p1", ⟨"1", "integer", "math", "q"⟩)]
            [("p1", ⟨"1"⟩)]).correct_final_answers : ℚ) /
          ([("p1", (⟨"1"⟩ : ResultData))] : List (String × ResultData)).length
      else 0) ∧
    (0 < (1 : ℕ) ∧ (1 : ℕ) ≤ 1 ∧
      (⟨1, 1, 1⟩ : CategoryStat).accuracy = ((1 : ℕ) : ℚ) / ((1 : ℕ) : ℚ)) :=
  ⟨(c8_accuracy_ratios_amended [("p1", ⟨"1", "integer", "math", "q"⟩)]
      [("p1", ⟨"1"⟩)]).1,
   (c8_accuracy_ratios_amended [("p1", ⟨"1", "integer", "math", "q"⟩)]
      [("p1", ⟨"1"⟩)]).2 "math" ⟨1, 1, 1⟩ (by decide)⟩

/-! ## Decimal printing and parsing: the roundtrip (towards C6) -/

theorem tokSet_facts : ∀ c ∈ tokSet, tokChar c = true ∧ c.toLower = c ∧
    pySpace c = false ∧ c ≠ '$' ∧ c ≠ 'u' ∧ c ≠ 's' ∧ c ≠ 'r' ∧ c ≠ 'd' ∧ c ≠ 't' := by
  decide

theorem decDigits_facts : ∀ c ∈ decDigits, c.isDigit = true ∧ c ≠ '.' ∧
    digVal c ≤ 9 ∧ c ∈ tokSet := by
  decide

theorem digVal_pos_of_ne_zero : ∀ c ∈ decDigits, c ≠ '0' → 1 ≤ digVal c := by
  decide

theorem foldl_digits_shift (l : List Char) : ∀ a : ℕ,
    l.foldl (fun x c => 10 * x + digVal c) a =
      a * 10 ^ l.length + l.foldl (fun x c => 10 * x + digVal c) 0 := by
  induction l with
  | nil => intro a; simp
  | cons c t ih =>
    intro a
    rw [List.foldl_cons, List.foldl_cons, ih (10 * a + digVal c), ih (10 * 0 + digVal c),
      List.length_cons]
    ring

theorem parseNat_cons (c : Char) (t : List Char) :
    parseNatChars (c :: t) = digVal c * 10 ^ t.length + parseNatChars t := by
  show (c :: t).foldl (fun x c => 10 * x + digVal c) 0 = _
  rw [List.foldl_cons, foldl_digits_shift t (10 * 0 + digVal c)]
  show (10 * 0 + digVal c) * 10 ^ t.length + parseNatChars t = _
  ring

theorem parseNat_append (l1 l2 : List Char) :
    parseNatChars (l1 ++ l2) = parseNatChars l1 * 10 ^ l2.length + parseNatChars l2 := by
  show (l1 ++ l2).foldl (fun x c => 10 * x + digVal c) 0 = _
  rw [List.foldl_append, foldl_digits_shift l2]
  rfl

theorem parseNat_replicate_zero (m : ℕ) :
    parseNatChars (List.replicate m '0') = 0 := by
  induction m with
  | zero => rfl
  | succ k ih =>
    rw [List.replicate_succ, parseNat_cons, ih]
    have h0 : digVal '0' = 0 := by decide
    rw [h0]
    simp

theorem parseNat_concat (l : List Char) (c : Char) :
    parseNatChars (l ++ [c]) = 10 * parseNatChars l + digVal c := by
  rw [parseNat_append]
  show parseNatChars l * 10 ^ 1 + parseNatChars [c] = _
  rw [parseNat_cons]
  simp [parseNatChars]
  ring

theorem parseNat_lt (l : List Char) (h : ∀ c ∈ l, c ∈ decDigits) :
    parseNatChars l < 10 ^ l.length := by
  induction l with
  | nil => simp [parseNatChars]
  | cons c t ih =>
    have hd := (decDigits_facts c (h c (List.mem_cons_self _ _))).2.2.1
    have ht := ih fun x hx => h x (List.mem_cons_of_mem _ hx)
    rw [parseNat_cons, List.length_cons]
    have hb : digVal c * 10 ^ t.length ≤ 9 * 10 ^ t.length :=
      Nat.mul_le_mul_right _ hd
    calc digVal c * 10 ^ t.length + parseNatChars t
        ≤ 9 * 10 ^ t.length + parseNatChars t := Nat.add_le_add_right hb _
      _ < 9 * 10 ^ t.length + 10 ^ t.length := by omega
      _ = 10 ^ (t.length + 1) := by ring

/-! ### The fuel-driven printer -/

theorem natToCharsAux_irrel (n : ℕ) : ∀ (fuel fuel' : ℕ), n < fuel → n < fuel' →
    natToCharsAux fuel n = natToCharsAux fuel' n := by
  induction n using Nat.strong_induction_on with
  | _ n ih =>
    intro fuel fuel' h h'
    match fuel, h with
    | f + 1, _ =>
    match fuel', h' with
    | f' + 1, _ =>
    rw [natToCharsAux, natToCharsAux]
    by_cases h10 : n < 10
    · rw [if_pos h10, if_pos h10]
    · rw [if_neg h10, if_neg h10]
      have hdiv : n / 10 < n := Nat.div_lt_self (by omega) (by omega)
      rw [ih (n / 10) hdiv f f' (by omega) (by omega)]

theorem natToChars_lt10 (n : ℕ) (h : n < 10) : natToChars n = [Nat.digitChar n] := by
  rw [natToChars, natToCharsAux, if_pos h]

theorem natToChars_step (n : ℕ) (h : 10 ≤ n) :
    natToChars n = natToChars (n / 10) ++ [Nat.digitChar (n % 10)] := by
  have hdiv : n / 10 < n := Nat.div_lt_self (by omega) (by omega)
  rw [natToChars, natToCharsAux, if_neg (by omega), natToChars,
    natToCharsAux_irrel (n / 10) n (n / 10 + 1) (by omega) (by omega)]

theorem digitChar_mem_decDigits (m : ℕ) (h : m < 10) : Nat.digitChar m ∈ decDigits := by
  interval_cases m <;> decide

theorem digVal_digitChar (m : ℕ) (h : m < 10) : digVal (Nat.digitChar m) = m := by
  interval_cases m <;> decide

theorem natToChars_spec (n : ℕ) :
    parseNatChars (natToChars n) = n ∧ natToChars n ≠ [] ∧
    (∀ c ∈ natToChars n, c ∈ decDigits) ∧
    (∀ k, 1 ≤ k → n < 10 ^ k → (natToChars n).length ≤ k) := by
  induction n using Nat.strong_induction_on with
  | _ n ih =>
    by_cases h10 : n < 10
    · rw [natToChars_lt10 n h10]
      refine ⟨?_, by simp, ?_, ?_⟩
      · show parseNatChars [Nat.digitChar n] = n
        rw [show ([Nat.digitChar n] : List Char) = [] ++ [Nat.digitChar n] by rfl,
          parseNat_concat]
        simp [parseNatChars, digVal_digitChar n h10]
      · intro c hc
        rw [List.mem_singleton] at hc
        subst hc
        exact digitChar_mem_decDigits n h10
      · intro k hk _
        simpa using hk
    · have hdiv : n / 10 < n := Nat.div_lt_self (by omega) (by omega)
      obtain ⟨ih1, ih2, ih3, ih4⟩ := ih (n / 10) hdiv
      rw [natToChars_step n (by omega)]
      refine ⟨?_, by simp, ?_, ?_⟩
      · rw [parseNat_concat, ih1, digVal_digitChar _ (Nat.mod_lt _ (by omega))]
        omega
      · intro c hc
        rcases List.mem_append.mp hc with hc | hc
        · exact ih3 c hc
        · rw [List.mem_singleton] at hc
          subst hc
          exact digitChar_mem_decDigits _ (Nat.mod_lt _ (by omega))
      · intro k hk hnk
        rw [List.length_append, List.length_singleton]
        have hk2 : 2 ≤ k := by
          by_contra hcon
          have : k = 1 := by omega
          subst this
          simp at hnk
          omega
        have hd : n / 10 < 10 ^ (k - 1) := by
          rw [Nat.div_lt_iff_lt_mul (by omega)]
          calc n < 10 ^ k := hnk
            _ = 10 ^ (k - 1) * 10 := by
              rw [← pow_succ]
              congr 1
              omega
        have := ih4 (k - 1) (by omega) hd
        omega

/-! ### List helpers for the formatted-number shape -/

theorem takeWhile_all {p : Char → Bool} {l : List Char} (h : ∀ c ∈ l, p c = true) :
    l.takeWhile p = l := by
  induction l with
  | nil => rfl
  | cons c t ih =>
    rw [List.takeWhile_cons, h c (List.mem_cons_self _ _)]
    rw [ih fun x hx => h x (List.mem_cons_of_mem _ hx)]
    simp

theorem dropWhile_all {p : Char → Bool} {l : List Char} (h : ∀ c ∈ l, p c = true) :
    l.dropWhile p = [] := by
  induction l with
  | nil => rfl
  | cons c t ih =>
    rw [List.dropWhile_cons, h c (List.mem_cons_self _ _)]
    exact ih fun x hx => h x (List.mem_cons_of_mem _ hx)

theorem dropWhile_none {p : Char → Bool} {l : List Char} (h : ∀ c ∈ l, p c = false) :
    l.dropWhile p = l := by
  cases l with
  | nil => rfl
  | cons c t =>
    rw [List.dropWhile_cons, h c (List.mem_cons_self _ _)]
    simp

theorem takeWhile_append_stop {p : Char → Bool} {x y : List Char}
    (hx : ∀ c ∈ x, p c = true) (hy : y.head?.all (fun c => !p c) = true) :
    (x ++ y).takeWhile p = x ∧ (x ++ y).dropWhile p = y := by
  induction x with
  | nil =>
    cases y with
    | nil => exact ⟨rfl, rfl⟩
    | cons c t =>
      simp only [Option.all_some, List.head?_cons] at hy
      constructor
      · rw [List.nil_append, List.takeWhile_cons]
        simp only [Bool.not_eq_true'] at hy
        rw [hy]
        simp
      · rw [List.nil_append, List.dropWhile_cons]
        simp only [Bool.not_eq_true'] at hy
        rw [hy]
        simp
  | cons c t ih =>
    obtain ⟨ih1, ih2⟩ := ih (fun a ha => hx a (List.mem_cons_of_mem _ ha))
    constructor
    · rw [List.cons_append, List.takeWhile_cons, hx c (List.mem_cons_self _ _)]
      rw [ih1]
      simp
    · rw [List.cons_append, List.dropWhile_cons, hx c (List.mem_cons_self _ _)]
      simpa using ih2

theorem dropWhile_head_not {p : Char → Bool} :
    ∀ (l : List Char) (a : Char) (t : List Char), l.dropWhile p = a :: t → p a = false := by
  intro l
  induction l with
  | nil => intro a t h; cases h
  | cons c u ih =>
    intro a t h
    rw [List.dropWhile_cons] at h
    by_cases hc : p c
    · rw [if_pos hc] at h
      exact ih a t h
    · rw [if_neg hc] at h
      injection h with h1 h2
      subst h1
      exact Bool.eq_false_iff.mpr hc

theorem rstripChar_eq_self {c0 : Char} {l : List Char}
    (h : l.getLast? ≠ some c0) : rstripChar c0 l = l := by
  rw [rstripChar]
  cases hr : l.reverse with
  | nil =>
    have hl : l = [] := by
      have := congrArg List.reverse hr
      simpa using this
    rw [hl]
    rfl
  | cons a t =>
    have hga : l.getLast? = some a := by
      rw [← List.head?_reverse, hr]
      rfl
    have ha : ¬(a = c0) := fun hac => h (by rw [hga, hac])
    rw [List.dropWhile_cons, if_neg (by simpa using ha), ← hr, List.reverse_reverse]

theorem rstripChar_append_replicate (c0 : Char) (x : List Char) (m : ℕ) :
    rstripChar c0 (x ++ List.replicate m c0) = rstripChar c0 x := by
  rw [rstripChar, rstripChar, List.reverse_append, List.reverse_replicate]
  congr 1
  induction m with
  | zero => simp
  | succ k ih =>
    rw [List.replicate_succ, List.cons_append, List.dropWhile_cons, if_pos (by simp)]
    exact ih

theorem rstripChar_decomp (c0 : Char) (l : List Char) :
    l = rstripChar c0 l ++ List.replicate ((l.reverse.takeWhile (fun x => x = c0)).length) c0 ∧
      (rstripChar c0 l).getLast? ≠ some c0 := by
  constructor
  · conv_lhs =>
      rw [← List.reverse_reverse l,
        ← List.takeWhile_append_dropWhile (p := fun x => x = c0) (l := l.reverse)]
    rw [List.reverse_append, rstripChar]
    congr 1
    have hall : ∀ c ∈ (l.reverse.takeWhile (fun x => x = c0)).reverse, c = c0 := by
      intro c hc
      rw [List.mem_reverse] at hc
      simpa using List.mem_takeWhile_imp hc
    rw [List.eq_replicate_iff.mpr ⟨by rw [List.length_reverse], hall⟩]
  · rw [rstripChar, List.getLast?_reverse]
    cases hd : l.reverse.dropWhile (fun x => x = c0) with
    | nil => simp
    | cons a t =>
      have := dropWhile_head_not _ a t hd
      simp only [List.head?_cons]
      intro hcon
      injection hcon with h1
      rw [h1] at this
      simp at this

theorem mem_rstripChar {c c0 : Char} {l : List Char} (h : c ∈ rstripChar c0 l) :
    c ∈ l := by
  rw [rstripChar] at h
  rw [List.mem_reverse] at h
  have := mem_of_mem_dropWhile h
  rwa [List.mem_reverse] at this

/-! ### The cleanup pipeline fixes formatted numbers -/

theorem lowerChars_fixed {l : List Char} (h : ∀ c ∈ l, c.toLower = c) :
    lowerChars l = l := by
  rw [lowerChars]
  calc l.map Char.toLower = l.map id := List.map_congr_left h
    _ = l := List.map_id l

theorem pyStrip_fixed {l : List Char} (h : ∀ c ∈ l, pySpace c = false) :
    pyStripChars l = l := by
  rw [pyStripChars, dropWhile_none h, dropWhile_none, List.reverse_reverse]
  intro c hc
  exact h c (List.mem_reverse.mp hc)

theorem stripDollar_fixed {l : List Char} (h : ∀ c ∈ l, c ∈ tokSet) :
    stripDollar l = l := by
  cases l with
  | nil => rfl
  | cons c t =>
    have hd := (tokSet_facts c (h c (List.mem_cons_self _ _))).2.2.2.1
    rw [stripDollar.eq_def]
    split
    · rename_i heq
      simp_all
    · rfl

theorem ciPrefix_false_of_head {pat : List Char} {a : Char} {pc : Char} {t : List Char}
    (hpat : pat = pc :: pat.tail) (hne : a.toLower ≠ pc) :
    ciPrefix pat (a :: t) = false := by
  rw [ciPrefix, hpat]
  show List.isPrefixOf (pc :: pat.tail) (a.toLower :: lowerChars t) = false
  rw [List.isPrefixOf_cons₂]
  simp [Ne.symm hne, hne]

theorem stripUSD_fixed {l : List Char} (h : ∀ c ∈ l, c ∈ tokSet) :
    stripUSD l = l := by
  cases l with
  | nil => rfl
  | cons c t =>
    obtain ⟨-, hlow, -, -, hu, -⟩ := tokSet_facts c (h c (List.mem_cons_self _ _))
    rw [stripUSD, if_neg]
    rw [ciPrefix_false_of_head rfl (by rw [hlow]; exact hu)]
    simp

theorem ciSuffix_false_of_last {pat l : List Char} {pc : Char}
    (hlow : ∀ c ∈ l, c.toLower = c)
    (hpat : pat.reverse.head? = some pc) (hne : l.getLast? ≠ some pc) :
    ciSuffix pat l = false := by
  rw [ciSuffix, lowerChars_fixed hlow, List.isSuffixOf]
  rcases hp : pat.reverse with _ | ⟨b, v⟩
  · rw [hp] at hpat
    cases hpat
  · rw [hp, List.head?_cons] at hpat
    injection hpat with hb
    cases hr : l.reverse with
    | nil => rfl
    | cons a u =>
      have hga : l.getLast? = some a := by
        rw [← List.head?_reverse, hr]
        rfl
      have hane : a ≠ pc := fun hac => hne (by rw [hga, hac])
      rw [List.isPrefixOf_cons₂]
      have hba : (b == a) = false := beq_eq_false_iff_ne.mpr (by
        rw [hb]
        exact Ne.symm hane)
      rw [hba]
      simp

theorem mem_of_getLast?_eq {l : List Char} {pc : Char} (h : l.getLast? = some pc) :
    pc ∈ l := by
  have hrev : l.reverse.head? = some pc := by
    rw [List.head?_reverse]
    exact h
  cases hr : l.reverse with
  | nil =>
    rw [hr] at hrev
    cases hrev
  | cons a u =>
    rw [hr, List.head?_cons] at hrev
    injection hrev with ha
    rw [← List.mem_reverse, hr, ha]
    exact List.mem_cons_self _ _

theorem stripSuffixWords_fixed {l : List Char} (h : ∀ c ∈ l, c ∈ tokSet) :
    stripSuffixWords l = l := by
  have hlow : ∀ c ∈ l, c.toLower = c := fun c hc => (tokSet_facts c (h c hc)).2.1
  have hlast : ∀ pc : Char, pc ∈ (['s', 'r', 'd', 't'] : List Char) →
      l.getLast? ≠ some pc := by
    intro pc hpc hcon
    have hm : pc ∈ l := mem_of_getLast?_eq hcon
    obtain ⟨-, -, -, -, -, hs, hr, hd, ht⟩ := tokSet_facts pc (h pc hm)
    fin_cases hpc
    · exact hs rfl
    · exact hr rfl
    · exact hd rfl
    · exact ht rfl
  rw [stripSuffixWords,
    ciSuffix_false_of_last hlow (show (['d','o','l','l','a','r','s'] :
      List Char).reverse.head? = some 's' by rfl) (hlast 's' (by decide)),
    ciSuffix_false_of_last hlow (show (['d','o','l','l','a','r'] :
      List Char).reverse.head? = some 'r' by rfl) (hlast 'r' (by decide)),
    ciSuffix_false_of_last hlow (show (['u','s','d'] :
      List Char).reverse.head? = some 'd' by rfl) (hlast 'd' (by decide)),
    ciSuffix_false_of_last hlow (show (['u','n','i','t','s'] :
      List Char).reverse.head? = some 's' by rfl) (hlast 's' (by decide)),
    ciSuffix_false_of_last hlow (show (['u','n','i','t'] :
      List Char).reverse.head? = some 't' by rfl) (hlast 't' (by decide))]
  simp

theorem splitWsAux_no_space (l : List Char) : ∀ (cur : List Char),
    (∀ c ∈ l, pySpace c = false) →
    splitWsAux cur l = if cur = [] ∧ l = [] then [] else [cur.reverse ++ l] := by
  induction l with
  | nil =>
    intro cur _
    rw [splitWsAux.eq_def]
    by_cases hc : cur = []
    · simp [hc]
    · simp [hc, List.isEmpty_iff]
  | cons c t ih =>
    intro cur h
    rw [splitWsAux.eq_def]
    simp only [h c (List.mem_cons_self _ _)]
    rw [ih (c :: cur) (fun x hx => h x (List.mem_cons_of_mem _ hx))]
    simp

theorem collapseWs_fixed {l : List Char} (hne : l ≠ [])
    (h : ∀ c ∈ l, pySpace c = false) : collapseWs l = l := by
  rw [collapseWs, pyWords, splitWsAux_no_space l [] h, if_neg (by simp [hne])]
  rw [List.intercalate]
  simp

theorem cleanupChars_fixed {l : List Char} (hne : l ≠ [])
    (h : ∀ c ∈ l, c ∈ tokSet) : cleanupChars l = l := by
  have hsp : ∀ c ∈ l, pySpace c = false := fun c hc => (tokSet_facts c (h c hc)).2.2.1
  rw [cleanupChars, pyStrip_fixed hsp, stripDollar_fixed h, stripUSD_fixed h,
    stripSuffixWords_fixed h, collapseWs_fixed hne hsp]

theorem findToken_all {l : List Char} (hne : l ≠ []) (h : ∀ c ∈ l, tokChar c = true) :
    findToken l = some (l, []) := by
  cases l with
  | nil => exact absurd rfl hne
  | cons c t =>
    rw [findToken, if_pos (h c (List.mem_cons_self _ _)), takeWhile_all h, dropWhile_all h]

/-! ### Arithmetic of the 6-digit rounding -/

theorem roundN6_exact (q : ℚ) (N : ℕ) (hq : 0 ≤ q) (hqN : q * 1000000 = (N : ℚ)) :
    roundN6 q = N := by
  have hz : q.num * 1000000 = (N : ℤ) * q.den := by
    have hcast : (q.num : ℚ) * 1000000 = (N : ℚ) * q.den := by
      calc (q.num : ℚ) * 1000000 = q * (q.den : ℚ) * 1000000 := by rw [mul_den_eq_num]
        _ = q * 1000000 * q.den := by ring
        _ = (N : ℚ) * q.den := by rw [hqN]
    exact_mod_cast hcast
  have hnn : 0 ≤ q.num := Rat.num_nonneg.mpr hq
  have hnat : q.num.toNat * 1000000 = N * q.den := by omega
  rw [roundN6]
  have h2 : 2 * q.num.toNat * 1000000 + q.den = q.den * (2 * N + 1) := by
    rw [mul_assoc, hnat]
    ring
  rw [h2, show 2 * q.den = q.den * 2 by ring, Nat.mul_div_mul_left _ _ q.pos]
  omega

theorem den_ne_one_of_frac (q : ℚ) (I : ℕ) (h1 : (I : ℚ) < q) (h2 : q < (I : ℚ) + 1) :
    q.den ≠ 1 := by
  intro hden
  have hq := (Rat.den_eq_one_iff q).mp hden
  rw [← hq] at h1 h2
  have hi1 : (I : ℤ) < q.num := by exact_mod_cast h1
  have hi2 : q.num < (I : ℤ) + 1 := by exact_mod_cast h2
  omega

theorem pyTokenFloat_nonneg {tok : List Char} {v : ℚ} (h : pyTokenFloat tok = some v) :
    0 ≤ v := by
  rw [pyTokenFloat] at h
  split at h
  · injection h with hv
    rw [← hv, qAdd_eq, Rat.mkRat_eq_div]
    positivity
  · cases h

theorem normUnitConvert_nonneg (v : ℚ) (u : Option String) (hv : 0 ≤ v) :
    0 ≤ normUnitConvert v u := by
  cases u with
  | none => exact hv
  | some s =>
    rw [normUnitConvert]
    split_ifs <;> first
      | (rw [qMul_eq]; positivity)
      | (rw [qDiv_eq]; positivity)
      | exact hv

theorem intToChars_nonneg {n : ℤ} (h : 0 ≤ n) : intToChars n = natToChars n.toNat := by
  rw [intToChars, if_neg (by omega)]

/-! ### Token parsing of digit strings -/

theorem ne_dot_decide {c : Char} (h : c ∈ decDigits) :
    (decide (c ≠ '.')) = true := by
  have := (decDigits_facts c h).2.1
  simpa using this

theorem pyTokenFloat_digits {l : List Char} (hne : l ≠ [])
    (h : ∀ c ∈ l, c ∈ decDigits) :
    pyTokenFloat l = some ((parseNatChars l : ℕ) : ℚ) := by
  have htok : ∀ c ∈ l, tokChar c = true := fun c hc =>
    (tokSet_facts c (decDigits_facts c (h c hc)).2.2.2).1
  have hdot : ('.' : Char) ∉ l := fun hmem =>
    absurd rfl (decDigits_facts '.' (h '.' hmem)).2.1
  rw [pyTokenFloat, if_pos]
  · have hip : l.takeWhile (fun c => c ≠ '.') = l :=
      takeWhile_all fun c hc => ne_dot_decide (h c hc)
    have hfp : l.dropWhile (fun c => c ≠ '.') = [] :=
      dropWhile_all fun c hc => ne_dot_decide (h c hc)
    rw [hip, hfp]
    show some (qAdd _ (mkRat (parseNatChars []) (10 ^ (List.drop 1 ([] : List Char)).length)))
      = _
    congr 1
    rw [qAdd_eq]
    show (parseNatChars l : ℚ) + mkRat (parseNatChars []) (10 ^ (0 : ℕ)) = _
    rw [show parseNatChars [] = 0 from rfl]
    rw [Rat.mkRat_eq_div]
    simp
  · refine ⟨List.all_eq_true.mpr htok, ?_, ?_⟩
    · cases l with
      | nil => exact absurd rfl hne
      | cons c t =>
        rw [List.any_cons, (decDigits_facts c (h c (List.mem_cons_self _ _))).1]
        simp
    · rw [List.count_eq_zero.mpr hdot]
      omega

theorem pyTokenFloat_decimal {x y : List Char} (hxne : x ≠ [])
    (hx : ∀ c ∈ x, c ∈ decDigits) (hy : ∀ c ∈ y, c ∈ decDigits) :
    pyTokenFloat (x ++ '.' :: y) =
      some (qAdd (parseNatChars x : ℚ) (mkRat (parseNatChars y) (10 ^ y.length))) := by
  have hdotx : ('.' : Char) ∉ x := fun hmem =>
    absurd rfl (decDigits_facts '.' (hx '.' hmem)).2.1
  have hdoty : ('.' : Char) ∉ y := fun hmem =>
    absurd rfl (decDigits_facts '.' (hy '.' hmem)).2.1
  obtain ⟨hip, hfp⟩ := takeWhile_append_stop (p := fun c => c ≠ '.')
    (x := x) (y := '.' :: y) (fun c hc => ne_dot_decide (hx c hc)) (by simp)
  rw [pyTokenFloat, if_pos]
  · rw [hip, hfp]
    rfl
  · refine ⟨?_, ?_, ?_⟩
    · rw [List.all_eq_true]
      intro c hc
      rcases List.mem_append.mp hc with hc | hc
      · exact (tokSet_facts c (decDigits_facts c (hx c hc)).2.2.2).1
      · rcases List.mem_cons.mp hc with rfl | hc
        · rfl
        · exact (tokSet_facts c (decDigits_facts c (hy c hc)).2.2.2).1
    · cases x with
      | nil => exact absurd rfl hxne
      | cons c t =>
        rw [List.cons_append, List.any_cons,
          (decDigits_facts c (hx c (List.mem_cons_self _ _))).1]
        simp
    · rw [List.count_append, List.count_eq_zero.mpr hdotx, List.count_cons_self,
        List.count_eq_zero.mpr hdoty]

/-! ### The format/parse roundtrip -/

theorem formatNum_natCast (n : ℕ) : formatNum ((n : ℕ) : ℚ) = natToChars n := by
  rw [formatNum, if_pos (Rat.den_natCast n), Rat.num_natCast,
    intToChars_nonneg (by positivity)]
  have ht : ((n : ℤ)).toNat = n := by omega
  rw [ht]

theorem getLast?_natToChars_ne_dot (n : ℕ) : (natToChars n).getLast? ≠ some '.' := by
  obtain ⟨-, hne, hdg, -⟩ := natToChars_spec n
  rw [List.getLast?_eq_getLast _ hne]
  intro hcon
  injection hcon with h1
  have hmem := List.getLast_mem hne
  rw [h1] at hmem
  exact absurd rfl (decDigits_facts '.' (hdg '.' hmem)).2.1

/-- Shape and re-parse of the trailing-zero-stripped 6-digit format:
either it is a bare integer numeral, or an `intpart.fracpart` numeral whose
re-parse re-rounds to the same `roundN6` value. -/
theorem fmt6_roundtrip (q : ℚ) :
    fmt6 q ≠ [] ∧ (∀ c ∈ fmt6 q, c ∈ tokSet) ∧
    ∃ v : ℚ, 0 ≤ v ∧ pyTokenFloat (fmt6 q) = some v ∧ formatNum v = fmt6 q := by
  set N := roundN6 q with hN
  set I := N / 1000000 with hI
  set F := N % 1000000 with hF
  obtain ⟨hpI, hneI, hdgI, hlenI⟩ := natToChars_spec I
  obtain ⟨hpF, hneF, hdgF, hlenF⟩ := natToChars_spec F
  have hFlt : F < 1000000 := Nat.mod_lt _ (by norm_num)
  have hlen6 : (natToChars F).length ≤ 6 := by
    apply hlenF 6 (by norm_num)
    have h6 : (10 : ℕ) ^ 6 = 1000000 := by norm_num
    omega
  set fd6 := pad6 (natToChars F) with hfd6
  have hfd6len : fd6.length = 6 := by
    rw [hfd6, pad6, List.length_append, List.length_replicate]
    omega
  have hfd6mem : ∀ c ∈ fd6, c ∈ decDigits := by
    intro c hc
    rw [hfd6, pad6] at hc
    rcases List.mem_append.mp hc with hc | hc
    · rw [List.eq_of_mem_replicate hc]
      decide
    · exact hdgF c hc
  have hfd6parse : parseNatChars fd6 = F := by
    rw [hfd6, pad6, parseNat_append, parseNat_replicate_zero, hpF]
    simp
  obtain ⟨hdec, hlast⟩ := rstripChar_decomp '0' fd6
  set fd' := rstripChar '0' fd6 with hfd'
  set m := ((fd6.reverse.takeWhile (fun x => x = '0')).length) with hm
  have hfmt : fmt6 q = rstripChar '.' (rstripChar '0' (natToChars I ++ '.' :: fd6)) := rfl
  have hsplit : natToChars I ++ '.' :: fd6 =
      (natToChars I ++ '.' :: fd') ++ List.replicate m '0' := by
    conv_lhs => rw [hdec]
    simp
  have hGm : parseNatChars fd' * 10 ^ m = F := by
    rw [← hfd6parse]
    conv_rhs => rw [hdec]
    rw [parseNat_append, parseNat_replicate_zero, List.length_replicate]
    simp
  have hkm : fd'.length + m = 6 := by
    rw [← hfd6len]
    conv_rhs => rw [hdec]
    rw [List.length_append, List.length_replicate]
  by_cases hfd'e : fd' = []
  · -- all-zero fraction: the dot is stripped and a bare integer remains
    have hshape : fmt6 q = natToChars I := by
      rw [hfmt, hsplit, hfd'e, rstripChar_append_replicate]
      have h1 : rstripChar '0' (natToChars I ++ '.' :: ([] : List Char)) =
          natToChars I ++ ['.'] := by
        apply rstripChar_eq_self
        rw [List.getLast?_append_of_ne_nil _ (by simp)]
        decide
      rw [h1, show (natToChars I ++ ['.'] : List Char) =
        natToChars I ++ List.replicate 1 '.' by simp, rstripChar_append_replicate,
        rstripChar_eq_self (getLast?_natToChars_ne_dot I)]
    rw [hshape]
    refine ⟨hneI, fun c hc => (decDigits_facts c (hdgI c hc)).2.2.2, ?_⟩
    refine ⟨((parseNatChars (natToChars I) : ℕ) : ℚ), by positivity,
      pyTokenFloat_digits hneI hdgI, ?_⟩
    rw [formatNum_natCast, hpI]
  · -- nonzero fraction: `I.fd'` with the last fraction digit nonzero
    have hlastc := List.getLast?_eq_getLast _ hfd'e
    set clast := fd'.getLast hfd'e with hclast
    have hcmem : clast ∈ decDigits := hfd6mem clast (mem_rstripChar (List.getLast_mem hfd'e))
    have hcne0 : clast ≠ '0' := by
      intro hcon
      apply hlast
      rw [hlastc, hcon]
    have hcned : clast ≠ '.' := (decDigits_facts clast hcmem).2.1
    have hshape : fmt6 q = natToChars I ++ '.' :: fd' := by
      rw [hfmt, hsplit, rstripChar_append_replicate]
      have h1 : rstripChar '0' (natToChars I ++ '.' :: fd') =
          natToChars I ++ '.' :: fd' := by
        apply rstripChar_eq_self
        rw [List.getLast?_append_of_ne_nil _ (by simp),
          show ('.' :: fd' : List Char) = ['.'] ++ fd' by simp,
          List.getLast?_append_of_ne_nil _ hfd'e, hlastc]
        intro hcon
        injection hcon with h2
        exact hcne0 h2
      rw [h1]
      apply rstripChar_eq_self
      rw [List.getLast?_append_of_ne_nil _ (by simp),
        show ('.' :: fd' : List Char) = ['.'] ++ fd' by simp,
        List.getLast?_append_of_ne_nil _ hfd'e, hlastc]
      intro hcon
      injection hcon with h2
      exact hcned h2
    have hfd'mem : ∀ c ∈ fd', c ∈ decDigits := fun c hc => hfd6mem c (mem_rstripChar hc)
    rw [hshape]
    refine ⟨by simp, ?_, ?_⟩
    · intro c hc
      rcases List.mem_append.mp hc with hc | hc
      · exact (decDigits_facts c (hdgI c hc)).2.2.2
      · rcases List.mem_cons.mp hc with rfl | hc
        · exact List.mem_cons_self _ _
        · exact (decDigits_facts c (hfd'mem c hc)).2.2.2
    set G := parseNatChars fd' with hG
    set k := fd'.length with hk
    have hG1 : 1 ≤ G := by
      have hdecomp := List.dropLast_append_getLast hfd'e
      have : G = 10 * parseNatChars fd'.dropLast + digVal clast := by
        rw [hG]
        conv_lhs => rw [← hdecomp]
        rw [parseNat_concat]
      have hpos := digVal_pos_of_ne_zero clast hcmem hcne0
      omega
    have hGk : G < 10 ^ k := parseNat_lt fd' hfd'mem
    set v : ℚ := qAdd (parseNatChars (natToChars I) : ℚ) (mkRat G (10 ^ k)) with hv
    have hveq : v = (I : ℚ) + (G : ℚ) / (10 : ℚ) ^ k := by
      rw [hv, qAdd_eq, Rat.mkRat_eq_div, hpI]
      push_cast
      ring
    have hfracpos : (0 : ℚ) < (G : ℚ) / (10 : ℚ) ^ k := by
      apply div_pos
      · exact_mod_cast hG1
      · positivity
    have hfraclt : (G : ℚ) / (10 : ℚ) ^ k < 1 := by
      rw [div_lt_one (by positivity)]
      exact_mod_cast hGk
    have hv0 : 0 ≤ v := by
      rw [hveq]
      exact add_nonneg (Nat.cast_nonneg I) (le_of_lt hfracpos)
    have hvden : v.den ≠ 1 := by
      apply den_ne_one_of_frac v I
      · rw [hveq]
        linarith
      · rw [hveq]
        linarith
    have hNval : I * 1000000 + G * 10 ^ m = N := by
      have h1 := hGm
      omega
    have hvN : v * 1000000 = ((N : ℕ) : ℚ) := by
      have hnat2 : N * 10 ^ k = I * 1000000 * 10 ^ k + G * 1000000 := by
        have hpow : (10 : ℕ) ^ m * 10 ^ k = 1000000 := by
          rw [← pow_add, show m + k = 6 by omega]
          norm_num
        calc N * 10 ^ k = (I * 1000000 + G * 10 ^ m) * 10 ^ k := by rw [hNval]
          _ = I * 1000000 * 10 ^ k + G * (10 ^ m * 10 ^ k) := by ring
          _ = I * 1000000 * 10 ^ k + G * 1000000 := by rw [hpow]
      rw [hveq]
      have hpk : ((10 : ℚ)) ^ k ≠ 0 := by positivity
      rw [add_div' _ _ _ hpk, div_mul_eq_mul_div, div_eq_iff hpk]
      have hcast : ((N : ℕ) : ℚ) * (10 : ℚ) ^ k =
          (I : ℚ) * 1000000 * (10 : ℚ) ^ k + (G : ℚ) * 1000000 := by
        exact_mod_cast hnat2
      push_cast
      linear_combination (-1 : ℚ) * hcast
    have hroundv : roundN6 v = N := roundN6_exact v N hv0 hvN
    refine ⟨v, hv0, ?_, ?_⟩
    · rw [hv]
      exact pyTokenFloat_decimal hneI hdgI hfd'mem
    · rw [formatNum, if_neg hvden]
      simp only [fmt6]
      rw [hroundv, ← hI, ← hF, ← hfd6, ← hfmt]
      exact hshape

theorem formatNum_spec (q : ℚ) (hq : 0 ≤ q) :
    formatNum q ≠ [] ∧ (∀ c ∈ formatNum q, c ∈ tokSet) ∧
    ∃ v : ℚ, 0 ≤ v ∧ pyTokenFloat (formatNum q) = some v ∧ formatNum v = formatNum q := by
  by_cases hden : q.den = 1
  · have hnum : 0 ≤ q.num := Rat.num_nonneg.mpr hq
    have hform : formatNum q = natToChars q.num.toNat := by
      rw [formatNum, if_pos hden, intToChars_nonneg hnum]
    obtain ⟨hp, hne, hdg, -⟩ := natToChars_spec q.num.toNat
    rw [hform]
    refine ⟨hne, fun c hc => (decDigits_facts c (hdg c hc)).2.2.2, ?_⟩
    refine ⟨((parseNatChars (natToChars q.num.toNat) : ℕ) : ℚ), by positivity,
      pyTokenFloat_digits hne hdg, ?_⟩
    rw [formatNum_natCast, hp]
  · have hform : formatNum q = fmt6 q := by rw [formatNum, if_neg hden]
    rw [hform]
    exact fmt6_roundtrip q

/-- Reduction of `normalize_answer` on the successful numeric-parse path. -/
theorem normalize_answer_success (a t : String) (tok rest : List Char) (v : ℚ)
    (ht : t = "integer" ∨ t = "float")
    (hemp : a.data.isEmpty = false)
    (hft : findToken (cleanupChars a.data) = some (tok, rest))
    (htokp : pyTokenFloat tok = some v) :
    normalize_answer a t =
      String.mk (lowerChars (formatNum (normUnitConvert v (matchUnit rest)))) := by
  simp only [normalize_answer, hemp, Bool.false_eq_true, if_false, if_pos ht, hft, htokp]

/-- A canonically formatted number re-normalizes to itself. -/
theorem normalize_mk_formatNum (q : ℚ) (hq : 0 ≤ q) (t : String)
    (ht : t = "integer" ∨ t = "float") :
    normalize_answer (String.mk (formatNum q)) t = String.mk (formatNum q) := by
  obtain ⟨hne, hmem, v, hv0, hparse, hform⟩ := formatNum_spec q hq
  have htok : ∀ c ∈ formatNum q, tokChar c = true := fun c hc =>
    (tokSet_facts c (hmem c hc)).1
  have hlowfix : lowerChars (formatNum q) = formatNum q :=
    lowerChars_fixed fun c hc => (tokSet_facts c (hmem c hc)).2.1
  have hempty : (String.mk (formatNum q)).data.isEmpty = false := by
    show (formatNum q).isEmpty = false
    cases hfq : formatNum q with
    | nil => exact absurd hfq hne
    | cons x y => rfl
  have hfind : findToken (cleanupChars (formatNum q)) = some (formatNum q, []) := by
    rw [cleanupChars_fixed hne hmem]
    exact findToken_all hne htok
  rw [normalize_answer_success (String.mk (formatNum q)) t (formatNum q) [] v ht
    hempty hfind hparse]
  show String.mk (lowerChars (formatNum v)) = _
  rw [hform, hlowfix]

/-- C6 amended: normalization is idempotent on every answer whose numeric
parse succeeds (for a numeric answer type): the first pass emits a
canonically formatted number, which re-normalizes to itself. -/
theorem c6_idempotent_on_parsed_numerics (a t : String)
    (ht : t = "integer" ∨ t = "float") (h : numericParseOk a = true) :
    normalize_answer (normalize_answer a t) t = normalize_answer a t := by
  rcases hft : findToken (cleanupChars a.data) with _ | ⟨tok, rest⟩
  · simp only [numericParseOk, hft] at h
    cases h
  · simp only [numericParseOk, hft] at h
    rcases htokp : pyTokenFloat tok with _ | v
    · rw [htokp] at h
      simp at h
    · have hv0 : 0 ≤ v := pyTokenFloat_nonneg htokp
      have hq0 : 0 ≤ normUnitConvert v (matchUnit rest) :=
        normUnitConvert_nonneg v _ hv0
      have hemp : a.data.isEmpty = false := by
        cases hd : a.data with
        | nil =>
          rw [hd, show cleanupChars [] = [] from rfl] at hft
          cases hft
        | cons x y => rfl
      have h1 := normalize_answer_success a t tok rest v ht hemp hft htokp
      obtain ⟨-, hmem, -⟩ := formatNum_spec _ hq0
      have hlowfix : lowerChars (formatNum (normUnitConvert v (matchUnit rest))) =
          formatNum (normUnitConvert v (matchUnit rest)) :=
        lowerChars_fixed fun c hc => (tokSet_facts c (hmem c hc)).2.1
      rw [h1, hlowfix]
      exact normalize_mk_formatNum _ hq0 t ht

/-- Witness for C6 amended: `"100 cm"` parses, normalizes to `"1"`, and is
idempotent. -/
theorem c6_idempotent_on_parsed_numerics_witness :
    numericParseOk "100 cm" = true ∧
    normalize_answer (normalize_answer "100 cm" "float") "float" =
      normalize_answer "100 cm" "float" :=
  ⟨by decide,
   c6_idempotent_on_parsed_numerics "100 cm" "float" (Or.inr rfl) (by decide)⟩

end RealMatrix
